import Mathlib

/-!
Verification development for the NCAA-Predictions ranking/comparator engine
and the probabilistic tournament simulator.

Python floats are embedded as exact rationals (`ℚ`); transcendental library
functions (`10 ** (x / 400)`, the chi-squared and normal CDFs, `sqrt 2`) are
embedded as explicit function/scalar parameters of the fitted state, since the
properties under study are independent of their exact values.
-/

namespace NCAA

/-- Modelled from the spec: the `Team` class (`{name, seed}`, equality and
hashing by name) is imported by `comparison/tournament.py` and all comparators
from `comparison/game_attrs.py`, but that module does not define it; only its
callers are in the repository.  Per spec §3 a team is a name identifier plus a
bracket seed, and equality is by name. -/
structure Team where
  name : String
  seed : ℕ
deriving DecidableEq, Repr

/-- Name-based equality of teams, the Python `==`/dict-key semantics per
spec §3 ("Equality and hashing by name"). -/
def Team.sameName (a b : Team) : Bool :=
  a.name = b.name

/-- One record of `total_summary` as produced by `data_scraping/cleaner.py`:
`[A, B, W/L, A_score, B_score, A_eFG%, B_eFG%, A_TOV%, B_TOV%, A_ORB%, B_ORB%,
A_FTR, B_FTR]`. -/
structure GameRecord where
  teamA : String
  teamB : String
  winLoss : Bool
  scoreA : ℤ
  scoreB : ℤ
  eFGpA : ℚ
  eFGpB : ℚ
  tovpA : ℚ
  tovpB : ℚ
  orbpA : ℚ
  orbpB : ℚ
  ftrA : ℚ
  ftrB : ℚ
deriving DecidableEq, Repr

/-- `"-".join(name.split(" "))` from `TeamComparator.get_teams`: splitting on
every single space and rejoining with dashes replaces each space character
with a dash. -/
def dashJoin (s : String) : String :=
  ⟨s.data.map (fun c => if c = ' ' then '-' else c)⟩

/-- `TeamComparator.get_teams`: the distinct dash-joined `teamA` names of the
summary (`list(set("-".join(game[HOME_TEAM].value].split(" ")) ...))`). -/
def getTeams (summary : List GameRecord) : List String :=
  (summary.map (fun g => dashJoin g.teamA)).dedup

/-- The qualifying-game guard shared verbatim by every ranking model:
`if teamA in teams and teamB in teams and game[GameValues.WIN_LOSS.value]`. -/
def qualifies (teams : List String) (g : GameRecord) : Prop :=
  g.teamA ∈ teams ∧ g.teamB ∈ teams ∧ g.winLoss = true

instance (teams : List String) (g : GameRecord) : Decidable (qualifies teams g) := by
  unfold qualifies
  infer_instance

/-- `mat[home_idx, away_idx] += 1` keyed by team name. -/
def bumpMat (m : String → String → ℕ) (a b : String) : String → String → ℕ :=
  fun x y => if x = a ∧ y = b then m x y + 1 else m x y

/-- The Bradley–Terry win-count matrix build
(`BradleyTerryComparator.__rank`, lines 34–45), keyed by team name. -/
def btMatName (teams : List String) (summary : List GameRecord) : String → String → ℕ :=
  summary.foldl
    (fun m g => if qualifies teams g then bumpMat m g.teamA g.teamB else m)
    (fun _ _ => 0)

/-! ### Elo (`elo_comparator.py`) -/

/-- The tiered K-factor of `EloComparator.__rank` (lines 68–74), as a function
of the lower of the two pre-game ratings. -/
def eloK (m : ℚ) : ℚ :=
  if m < 1500 then 32
  else if 1700 ≤ m ∧ m ≤ 2000 then 24
  else 16

/-- One Elo game update (`EloComparator.__rank`, lines 63–77).  `tenPow`
embeds `x ↦ 10 ** (x / 400)`; the two rating writes are sequential, exactly as
in the Python code. -/
def eloGameUpdate (tenPow : ℚ → ℚ) (r : String → ℚ) (winner loser : String) :
    String → ℚ :=
  let qA := tenPow (r winner)
  let qB := tenPow (r loser)
  let eA := qA / (qA + qB)
  let eB := qB / (qA + qB)
  let K := eloK (min (r winner) (r loser))
  let r1 := Function.update r winner (r winner + K * (1 - eA))
  Function.update r1 loser (r1 loser + K * (0 - eB))

/-- Processing of one summary record by the Elo ranking loop, including the
qualifying-game guard. -/
def eloStep (tenPow : ℚ → ℚ) (teams : List String) (r : String → ℚ)
    (g : GameRecord) : String → ℚ :=
  if qualifies teams g then eloGameUpdate tenPow r g.teamA g.teamB else r

/-- The full Elo ranking loop over a season summary
(`for game in total_summary: ...`). -/
def eloProcess (tenPow : ℚ → ℚ) (teams : List String)
    (summary : List GameRecord) (r : String → ℚ) : String → ℚ :=
  summary.foldl (eloStep tenPow teams) r

/-- `EloComparator.compare_teams` (lines 93–99): the logistic expectancy of the
two fitted ratings.  `tenPow` embeds `x ↦ 10 ** (x / 400)`. -/
def eloCompare (tenPow : ℚ → ℚ) (rankings : String → ℚ) (a b : Team) : ℚ :=
  let qA := tenPow (rankings a.name)
  let qB := tenPow (rankings b.name)
  qA / (qA + qB)

/-! ### Bradley–Terry comparison (`bradley_terry_comparator.py`) -/

/-- `BradleyTerryComparator.compare_teams` (lines 100–110). -/
def btCompare (rankings : String → ℚ) (a b : Team) : ℚ :=
  rankings a.name / (rankings a.name + rankings b.name)

/-! ### PageRank comparison (`pagerank_comparator.py`) -/

/-- The fitted state used by `PageRankComparator.compare_teams`: the rankings
mapping, the chi-squared CDF fitted to the rank vector (`cdf`, embedding
`scipy.stats.chi2.cdf(·, df=self._df)`), the min/max of the vector, and
`invSqrtTwo`, embedding the irrational constant `1 / sqrt 2`. -/
structure PRState where
  rankings : String → ℚ
  cdf : ℚ → ℚ
  minVec : ℚ
  maxVec : ℚ
  invSqrtTwo : ℚ

/-- `PageRankComparator.compare_teams` (lines 152–169): CDF-calibrated
distance, clipped at `0.999`, with the raw-score order as tie-break. -/
def prCompare (st : PRState) (a b : Team) : ℚ :=
  let rankA := st.rankings a.name
  let rankB := st.rankings b.name
  let diff := (st.cdf st.maxVec - st.cdf st.minVec) * st.invSqrtTwo
  let prob := min (|st.cdf rankA - st.cdf rankB| / diff + 1/2) (999/1000)
  if rankA ≥ rankB then prob else 1 - prob

/-! ### Seed comparison (`seed_comparator.py`) -/

/-- `SeedComparator.compare_teams` (line 34):
`norm.cdf(0, loc=teamA.seed - teamB.seed, scale=stdev)`.  `phi` embeds the
standard normal CDF, so the call is `phi ((0 - loc) / stdev)`. -/
def seedCompare (phi : ℚ → ℚ) (stdev : ℚ) (a b : Team) : ℚ :=
  phi ((0 - ((a.seed : ℚ) - (b.seed : ℚ))) / stdev)

/-! ### Graph-distance comparison: resistance (`resistance_comparator.py`) -/

/-- `ResistanceComparator.compare_teams` (lines 115–141).  The fitted table is
a partial pairwise map (`none` for a pair no path was sampled for; the pickled
`defaultdict` returns an empty row for an unknown team, which the `Option`
lookup also models).  Team equality is by name (spec §3). -/
def resistanceCompare (rmat : String → String → Option ℚ) (a b : Team) : ℚ :=
  if a.name = b.name then 1/2
  else
    match rmat a.name b.name, rmat b.name a.name with
    | none, none => (b.seed : ℚ) / ((a.seed : ℚ) + (b.seed : ℚ))
    | none, some _ => 1/100
    | some _, none => 99/100
    | some rab, some rba => rba / (rab + rba)

/-! ### Graph-distance comparison: path weight (`path_weight_comparator.py`)

The stored all-pairs table comes from Dijkstra over the win graph, which
assigns `inf` to unreachable pairs; `compare_teams` then performs IEEE float
arithmetic on those entries with no fallback branch.  `PFloat` embeds the
subset of IEEE-754 values and operations this code can produce on its
non-negative inputs. -/

/-- A non-negative IEEE float value: a rational, `+inf`, or `nan`. -/
inductive PFloat where
  | rat (q : ℚ)
  | inf
  | nan
deriving DecidableEq, Repr

/-- IEEE addition on the values `path_weight_comparator` handles. -/
def PFloat.add : PFloat → PFloat → PFloat
  | nan, _ => nan
  | _, nan => nan
  | inf, _ => inf
  | _, inf => inf
  | rat a, rat b => rat (a + b)

/-- IEEE division on the (non-negative) values `path_weight_comparator`
handles: `inf / inf = nan`, `finite / inf = 0`, `inf / finite = inf`. -/
def PFloat.div : PFloat → PFloat → PFloat
  | nan, _ => nan
  | _, nan => nan
  | inf, inf => nan
  | inf, rat _ => inf
  | rat _, inf => rat 0
  | rat a, rat b =>
    if b = 0 then (if a = 0 then nan else inf) else rat (a / b)

/-- `PathWeightComparator.compare_teams` (lines 92–99): the self-comparison
check, then a direct division of the two stored shortest-path distances — no
membership check and no fallback branch. -/
def pwCompare (pmat : String → String → PFloat) (a b : Team) : PFloat :=
  if a.name = b.name then PFloat.rat (1/2)
  else
    let spAB := pmat a.name b.name
    let spBA := pmat b.name a.name
    spBA.div (spAB.add spBA)

/-! ### Hybrid comparison (`team_comparator.py`, `HydridComparator`) -/

/-- Python `min` over a nonempty list (left fold from the head). -/
def listMin : List ℚ → ℚ
  | [] => 0
  | x :: xs => xs.foldl min x

/-- Python `max` over a nonempty list (left fold from the head). -/
def listMax : List ℚ → ℚ
  | [] => 0
  | x :: xs => xs.foldl max x

/-- `HydridComparator.compare_teams` (lines 95–101): evaluate every wrapped
comparator and return `max_conf` if `max_conf ≥ 1 - min_conf` else
`min_conf`. -/
def hybridCompare (comparators : List (Team → Team → ℚ)) (a b : Team) : ℚ :=
  let confs := comparators.map (fun f => f a b)
  let minConf := listMin confs
  let maxConf := listMax confs
  if maxConf ≥ 1 - minConf then maxConf else minConf

/-! ### GameResult and Tournament (`comparison/tournament.py`)

A `GameResult` is a Python dict mapping teams to probabilities; we embed it as
an association list in insertion order, with dict-key equality by team name
(spec §3). -/

/-- A `GameResult`'s probability mapping: `defaultdict[Team, float]`,
embedded as an association list in insertion order. -/
abbrev GameResult : Type := List (Team × ℚ)

/-- Dict lookup with the `defaultdict(float)` default of `0`, key equality by
name. -/
def grLookup (g : GameResult) (t : Team) : ℚ :=
  match g with
  | [] => 0
  | (u, w) :: rest => if u.name = t.name then w else grLookup rest t

/-- `result[t] += v` on a `defaultdict(float)`: add to the entry with the same
name if present (keeping the stored key object), else append a new entry. -/
def grAdd (g : GameResult) (t : Team) (v : ℚ) : GameResult :=
  match g with
  | [] => [(t, v)]
  | (u, w) :: rest =>
    if u.name = t.name then (u, w + v) :: rest else (u, w) :: grAdd rest t v

/-- Total probability mass of a `GameResult`. -/
def grMass (g : GameResult) : ℚ :=
  (g.map (fun p => p.2)).sum

/-- `GameResult.single_team`: a single team with probability 1. -/
def grSingle (t : Team) : GameResult := [(t, 1)]

/-- `Tournament._round` (lines 168–185): the convolution of two distributions
under the comparator. -/
def roundGR (cmp : Team → Team → ℚ) (a b : GameResult) : GameResult :=
  let r1 := a.foldl
    (fun acc p =>
      grAdd acc p.1 (p.2 * (b.map (fun q => q.2 * cmp p.1 q.1)).sum)) []
  b.foldl
    (fun acc p =>
      grAdd acc p.1 (p.2 * (a.map (fun q => q.2 * cmp p.1 q.1)).sum)) r1

/-- A `Tournament` is a binary tree whose leaves are `GameResult`s. -/
inductive Tournament where
  | leaf (g : GameResult)
  | node (left right : Tournament)

/-- `Tournament._leaves`: the `GameResult` nodes, left to right. -/
def Tournament.leavesOf : Tournament → List GameResult
  | .leaf g => [g]
  | .node l r => leavesOf l ++ leavesOf r

/-- `Tournament.play_round` (lines 199–240): a node whose both children are
leaves is replaced by the convolution of the two leaf distributions; other
nodes recurse; a leaf is returned unchanged. -/
def Tournament.playRound (cmp : Team → Team → ℚ) : Tournament → Tournament
  | .leaf g => .leaf g
  | .node (.leaf a) (.leaf b) => .leaf (roundGR cmp a b)
  | .node l r => .node (playRound cmp l) (playRound cmp r)

/-- `Tournament.from_team_list` (lines 80–114), with explicit fuel: the Python
method recurses on the two halves of the list with no base case for the empty
list, so `none` models non-termination within the given fuel. -/
def fromTeamListFuel : ℕ → List Team → Option Tournament
  | 0, _ => none
  | fuel + 1, teams =>
    if teams.length = 1 then some (.leaf (grSingle (teams.headD ⟨"", 0⟩)))
    else
      match fromTeamListFuel fuel (teams.take (teams.length / 2)),
        fromTeamListFuel fuel (teams.drop (teams.length / 2)) with
      | some l, some r => some (.node l r)
      | _, _ => none

/-- The recursive seed ordering generator `get_seedings` of
`Tournament.from_name_list` (lines 140–152), with fuel for the halving
recursion. -/
def getSeedings : ℕ → ℕ → List ℕ
  | 0, _ => []
  | _ + 1, 1 => [1]
  | fuel + 1, size =>
    (getSeedings fuel (size / 2)).flatMap (fun s => [s, size - s + 1])

/-- `Tournament.from_name_list` (lines 116–161): the two `ValueError` checks,
then the seed assignment and the `from_team_list` build.  An `error` result is
a raised `ValueError`; `none` inside the payload would mean the underlying
`from_team_list` recursion did not terminate within its fuel. -/
def fromNameList (names : List String) (quadrants : ℕ := 4) :
    Except String (Option Tournament) :=
  let numTeams := names.length
  if numTeams < quadrants then
    Except.error "Must have at least as many teams as quadrants"
  else if numTeams &&& (numTeams - 1) ≠ 0 then
    Except.error "Number of teams must be a power of 2"
  else
    let seeds := getSeedings numTeams (numTeams / quadrants)
    let teams := (List.range numTeams).map
      (fun i => Team.mk (names.getD i "") (seeds.getD (i % (numTeams / quadrants)) 0))
    Except.ok (fromTeamListFuel (numTeams + 1) teams)

/-! ### Summary fetch and rebuild (`TeamComparator.get_total_summary`) -/

/-- The environment of `TeamComparator.get_total_summary`: the stored season
summary file, and the external summary-builder collaborator
(`data_scraping.harvest`).  Modelled from the spec: `harvest` itself is not in
the repository (spec §6 specifies it as the excluded provider that either
fails or rebuilds the summary artifact). -/
structure SummaryEnv where
  stored : Option (List GameRecord)
  harvestOk : Bool
  harvestOut : List GameRecord

/-- Counters for the observable collaborator calls of
`get_total_summary`: summary-load attempts and harvest invocations. -/
structure FetchStats where
  loads : ℕ
  harvests : ℕ
deriving DecidableEq, Repr

/-- `TeamComparator.get_total_summary` (lines 34–60), with fuel for the
unbounded retry recursion.  The result is `Except.ok` of the Python return
value (`some summary`, or the bare `return` giving `none` when the builder
fails — the bare `except:` swallows the builder's exception); `Except.error`
is only reachable by fuel exhaustion, modelling non-termination. -/
def getTotalSummary : ℕ → SummaryEnv → FetchStats →
    Except Unit (Option (List GameRecord)) × FetchStats
  | 0, _, s => (Except.error (), s)
  | fuel + 1, env, s =>
    match env.stored with
    | some total => (Except.ok (some total), ⟨s.loads + 1, s.harvests⟩)
    | none =>
      let s1 : FetchStats := ⟨s.loads + 1, s.harvests + 1⟩
      if env.harvestOk then
        getTotalSummary fuel { env with stored := some env.harvestOut } s1
      else
        (Except.ok none, s1)

/-! ### PageRank fitting iteration (`PageRankComparator.__rank`) -/

/-- `mat *= alpha; mat += (1 - alpha) * ones / num_teams` (lines 122–124). -/
def prDampen (n : ℕ) (alpha : ℚ) (mat : Fin n → Fin n → ℚ) :
    Fin n → Fin n → ℚ :=
  fun i j => alpha * mat i j + (1 - alpha) / n

/-- `vec = mat @ vec`. -/
def prMatVec (n : ℕ) (mat : Fin n → Fin n → ℚ) (v : Fin n → ℚ) : Fin n → ℚ :=
  fun i => ∑ j, mat i j * v j

/-- `vec *= num_teams / sum(vec)` (line 129). -/
def prRenorm (n : ℕ) (v : Fin n → ℚ) : Fin n → ℚ :=
  fun i => v i * (n / ∑ j, v j)

/-- One iteration of the PageRank loop (lines 127–129). -/
def prStep (n : ℕ) (mat : Fin n → Fin n → ℚ) (v : Fin n → ℚ) : Fin n → ℚ :=
  prRenorm n (prMatVec n mat v)

/-- `iters` iterations of the PageRank loop. -/
def prIterate (n : ℕ) (mat : Fin n → Fin n → ℚ) : ℕ → (Fin n → ℚ) → Fin n → ℚ
  | 0, v => v
  | k + 1, v => prIterate n mat k (prStep n mat v)

/-- The first-year initial vector `np.ones((num_teams, 1))` (line 68). -/
def prInit (n : ℕ) : Fin n → ℚ := fun _ => 1

/-! ### Bradley–Terry fitting iteration (`BradleyTerryComparator.__rank`) -/

/-- The denominator `sum((mat[i,j] + mat[j,i]) / (vec[i] + vec[j]) for j != i)`
(lines 68–72). -/
def btDenom (n : ℕ) (mat : Fin n → Fin n → ℚ) (v : Fin n → ℚ) (i : Fin n) : ℚ :=
  ∑ j ∈ Finset.univ.filter (fun j => j ≠ i), (mat i j + mat j i) / (v i + v j)

/-- `new_vec[i] = sum(mat[i]) / denominator` (lines 66–73). -/
def btRaw (n : ℕ) (mat : Fin n → Fin n → ℚ) (v : Fin n → ℚ) : Fin n → ℚ :=
  fun i => (∑ j, mat i j) / btDenom n mat v i

/-- `new_vec[new_vec == 0] = 1 / num_teams**2` (line 77). -/
def btGuard (n : ℕ) (w : Fin n → ℚ) : Fin n → ℚ :=
  fun i => if w i = 0 then 1 / (n : ℚ) ^ 2 else w i

/-- `new_vec /= sum(new_vec)` (line 80). -/
def btNormalize (n : ℕ) (w : Fin n → ℚ) : Fin n → ℚ :=
  fun i => w i / ∑ j, w j

/-- One iteration of the Bradley–Terry fixed-point loop (lines 63–83). -/
def btStep (n : ℕ) (mat : Fin n → Fin n → ℚ) (v : Fin n → ℚ) : Fin n → ℚ :=
  btNormalize n (btGuard n (btRaw n mat v))

/-- `iters` iterations of the Bradley–Terry loop. -/
def btIterate (n : ℕ) (mat : Fin n → Fin n → ℚ) : ℕ → (Fin n → ℚ) → Fin n → ℚ
  | 0, v => v
  | k + 1, v => btIterate n mat k (btStep n mat v)

/-- The first-year initial strength vector: `np.ones((n,1)) / n` followed by
`vec /= sum(vec)` (lines 47 and 60). -/
def btInit (n : ℕ) : Fin n → ℚ :=
  btNormalize n (fun _ => 1 / (n : ℚ))

/-- Non-termination of the fueled `from_team_list` embedding: no amount of
fuel produces a result. -/
def fromTeamListDiverges (teams : List Team) : Prop :=
  ∀ fuel, fromTeamListFuel fuel teams = none

/-! ## Helper lemmas -/

/-- Updating one entry of a rating table shifts the sum over a duplicate-free
team list containing that entry by the difference at the entry. -/
theorem sum_map_update (l : List String) (r : String → ℚ) (a : String)
    (v : ℚ) (hn : l.Nodup) (ha : a ∈ l) :
    (l.map (Function.update r a v)).sum = (l.map r).sum + (v - r a) := by
  induction l with
  | nil => cases ha
  | cons x xs ih =>
    rcases List.nodup_cons.mp hn with ⟨hx, hxs⟩
    rcases List.mem_cons.mp ha with rfl | hmem
    · have hmap : xs.map (Function.update r a v) = xs.map r := by
        apply List.map_congr_left
        intro y hy
        refine Function.update_noteq (fun h => hx ?_) v r
        rw [← h]
        exact hy
      simp [hmap, Function.update_same]
      ring
    · have hxa : x ≠ a := fun h => hx (by rw [h]; exact hmem)
      simp [Function.update_noteq hxa, ih hxs hmem]
      ring

/-- An Elo game update leaves the sum of ratings over any duplicate-free team
list containing both participants unchanged (exact arithmetic). -/
theorem eloGameUpdate_sum (tenPow : ℚ → ℚ) (hpos : ∀ x, 0 < tenPow x)
    (teams : List String) (hn : teams.Nodup) (r : String → ℚ) (w l : String)
    (hw : w ∈ teams) (hl : l ∈ teams) :
    (teams.map (eloGameUpdate tenPow r w l)).sum = (teams.map r).sum := by
  have hq : tenPow (r w) + tenPow (r l) ≠ 0 :=
    ne_of_gt (add_pos (hpos _) (hpos _))
  have he : tenPow (r w) / (tenPow (r w) + tenPow (r l)) +
      tenPow (r l) / (tenPow (r w) + tenPow (r l)) = 1 := by
    rw [div_add_div_same, div_self hq]
  simp only [eloGameUpdate]
  rw [sum_map_update _ _ _ _ hn hl, sum_map_update _ _ _ _ hn hw]
  set eA := tenPow (r w) / (tenPow (r w) + tenPow (r l)) with heA
  set eB := tenPow (r l) / (tenPow (r w) + tenPow (r l)) with heB
  set K := eloK (min (r w) (r l)) with hK
  have hz : K * (1 - eA) + K * (0 - eB) = 0 := by linear_combination (-K) * he
  set X := Function.update r w (r w + K * (1 - eA)) l with hX
  linarith [hz]

/-- A sum of non-negative rationals that is positive has a positive term. -/
theorem exists_pos_of_sum_pos {n : ℕ} (v : Fin n → ℚ) (h : 0 < ∑ i, v i) :
    ∃ i, 0 < v i := by
  by_contra hcon
  push_neg at hcon
  have : ∑ i, v i ≤ 0 := Finset.sum_nonpos (fun i _ => hcon i)
  linarith

/-- One PageRank step on a positive matrix sends a non-negative, not
identically zero vector to a non-negative vector summing to `n`. -/
theorem prStep_facts (n : ℕ) (hn : 0 < n) (mat : Fin n → Fin n → ℚ)
    (hmat : ∀ i j, 0 < mat i j) (v : Fin n → ℚ) (hv : ∀ i, 0 ≤ v i)
    (hvs : 0 < ∑ i, v i) :
    (∀ i, 0 ≤ prStep n mat v i) ∧ ∑ i, prStep n mat v i = n := by
  obtain ⟨j0, hj0⟩ := exists_pos_of_sum_pos v hvs
  have hw : ∀ i, 0 < prMatVec n mat v i := by
    intro i
    have hterm : 0 < mat i j0 * v j0 := mul_pos (hmat i j0) hj0
    have hle : mat i j0 * v j0 ≤ ∑ j, mat i j * v j :=
      Finset.single_le_sum
        (fun j _ => mul_nonneg (le_of_lt (hmat i j)) (hv j))
        (Finset.mem_univ j0)
    exact lt_of_lt_of_le hterm hle
  have hws : 0 < ∑ i, prMatVec n mat v i :=
    Finset.sum_pos (fun i _ => hw i) ⟨⟨0, hn⟩, Finset.mem_univ _⟩
  constructor
  · intro i
    exact mul_nonneg (le_of_lt (hw i))
      (div_nonneg (Nat.cast_nonneg n) (le_of_lt hws))
  · show ∑ i, prMatVec n mat v i * ((n : ℚ) / ∑ j, prMatVec n mat v j) = n
    rw [← Finset.sum_mul]
    field_simp

/-- The PageRank iteration keeps the vector non-negative with positive sum,
and after at least one step the sum is exactly `n`. -/
theorem prIterate_facts (n : ℕ) (hn : 0 < n) (mat : Fin n → Fin n → ℚ)
    (hmat : ∀ i j, 0 < mat i j) :
    ∀ (k : ℕ) (v : Fin n → ℚ), (∀ i, 0 ≤ v i) → 0 < ∑ i, v i →
      (∀ i, 0 ≤ prIterate n mat k v i) ∧ 0 < ∑ i, prIterate n mat k v i ∧
      (1 ≤ k → ∑ i, prIterate n mat k v i = n) := by
  intro k
  induction k with
  | zero =>
    intro v hv hvs
    exact ⟨hv, hvs, fun h => absurd h (by norm_num)⟩
  | succ k ih =>
    intro v hv hvs
    obtain ⟨hs0, hs1⟩ := prStep_facts n hn mat hmat v hv hvs
    have hspos : 0 < ∑ i, prStep n mat v i := by
      rw [hs1]
      exact_mod_cast hn
    obtain ⟨A, B, C⟩ := ih (prStep n mat v) hs0 hspos
    refine ⟨A, B, fun _ => ?_⟩
    match k with
    | 0 => exact hs1
    | k + 1 => exact C (by omega)

/-- Normalizing a positive vector yields a positive vector of sum 1. -/
theorem btNormalize_facts (n : ℕ) (hn : 0 < n) (w : Fin n → ℚ)
    (hw : ∀ i, 0 < w i) :
    (∀ i, 0 < btNormalize n w i) ∧ ∑ i, btNormalize n w i = 1 := by
  have hs : 0 < ∑ i, w i :=
    Finset.sum_pos (fun i _ => hw i) ⟨⟨0, hn⟩, Finset.mem_univ _⟩
  constructor
  · intro i
    exact div_pos (hw i) hs
  · show ∑ i, w i / ∑ j, w j = 1
    rw [← Finset.sum_div, div_self (ne_of_gt hs)]

/-- One Bradley–Terry step on a non-negative game matrix in which every team
has played someone sends a positive vector to a positive vector of sum 1. -/
theorem btStep_facts (n : ℕ) (hn : 0 < n) (mat : Fin n → Fin n → ℚ)
    (hmat : ∀ i j, 0 ≤ mat i j)
    (hplay : ∀ i, ∃ j, j ≠ i ∧ 0 < mat i j + mat j i)
    (v : Fin n → ℚ) (hv : ∀ i, 0 < v i) :
    (∀ i, 0 < btStep n mat v i) ∧ ∑ i, btStep n mat v i = 1 := by
  have hguard : ∀ i, 0 < btGuard n (btRaw n mat v) i := by
    intro i
    unfold btGuard
    split_ifs with hzero
    · have : (0 : ℚ) < n := by exact_mod_cast hn
      positivity
    · have hden : 0 < btDenom n mat v i := by
        obtain ⟨j, hji, hj⟩ := hplay i
        unfold btDenom
        apply Finset.sum_pos'
        · intro x _
          exact div_nonneg (add_nonneg (hmat i x) (hmat x i))
            (le_of_lt (add_pos (hv i) (hv x)))
        · exact ⟨j, Finset.mem_filter.mpr ⟨Finset.mem_univ j, hji⟩,
            div_pos hj (add_pos (hv i) (hv j))⟩
      have hraw : 0 ≤ btRaw n mat v i :=
        div_nonneg (Finset.sum_nonneg (fun j _ => hmat i j)) (le_of_lt hden)
      exact lt_of_le_of_ne hraw (Ne.symm hzero)
  exact btNormalize_facts n hn _ hguard

/-- The Bradley–Terry iteration preserves positivity and unit sum. -/
theorem btIterate_facts (n : ℕ) (hn : 0 < n) (mat : Fin n → Fin n → ℚ)
    (hmat : ∀ i j, 0 ≤ mat i j)
    (hplay : ∀ i, ∃ j, j ≠ i ∧ 0 < mat i j + mat j i) :
    ∀ (k : ℕ) (v : Fin n → ℚ), (∀ i, 0 < v i) → ∑ i, v i = 1 →
      (∀ i, 0 < btIterate n mat k v i) ∧ ∑ i, btIterate n mat k v i = 1 := by
  intro k
  induction k with
  | zero => exact fun v hv hs => ⟨hv, hs⟩
  | succ k ih =>
    intro v hv _
    obtain ⟨h1, h2⟩ := btStep_facts n hn mat hmat hplay v hv
    exact ih (btStep n mat v) h1 h2

/-- Unfolding lemma for `bumpMat`. -/
theorem bumpMat_apply (m : String → String → ℕ) (a b x y : String) :
    bumpMat m a b x y = if x = a ∧ y = b then m x y + 1 else m x y := rfl

/-- The Bradley–Terry win-count fold counts exactly the games that pass the
qualifying guard with the given perspective pair, whatever the initial
matrix. -/
theorem btFold_count (teams : List String) (s : List GameRecord) :
    ∀ (m : String → String → ℕ) (a b : String),
      s.foldl
        (fun m g => if qualifies teams g then bumpMat m g.teamA g.teamB else m)
        m a b =
      m a b + s.countP (fun g => decide (g.teamA ∈ teams) &&
        decide (g.teamB ∈ teams) && g.winLoss &&
        decide (a = g.teamA) && decide (b = g.teamB)) := by
  induction s with
  | nil =>
    intro m a b
    simp
  | cons g gs ih =>
    intro m a b
    show gs.foldl _
      (if qualifies teams g then bumpMat m g.teamA g.teamB else m) a b = _
    rw [ih, List.countP_cons,
      apply_ite (fun f : String → String → ℕ => f a b)]
    simp only [qualifies, bumpMat_apply, Bool.and_eq_true, decide_eq_true_eq]
    split_ifs <;> first | omega | tauto

/-- Complement turns a minimum into a maximum. -/
theorem min_mirror (x y : ℚ) : min (1 - x) (1 - y) = 1 - max x y := by
  rcases le_total x y with h | h
  · rw [max_eq_right h, min_eq_right (by linarith)]
  · rw [max_eq_left h, min_eq_left (by linarith)]

/-- Complement turns a maximum into a minimum. -/
theorem max_mirror (x y : ℚ) : max (1 - x) (1 - y) = 1 - min x y := by
  rcases le_total x y with h | h
  · rw [min_eq_left h, max_eq_left (by linarith)]
  · rw [min_eq_right h, max_eq_right (by linarith)]

/-- Folding `max` over complements mirrors folding `min`. -/
theorem foldl_max_map_mirror (xs : List ℚ) :
    ∀ acc, (xs.map (fun c => 1 - c)).foldl max (1 - acc) =
      1 - xs.foldl min acc := by
  induction xs with
  | nil => intro acc; rfl
  | cons x xs ih =>
    intro acc
    show (xs.map _).foldl max (max (1 - acc) (1 - x)) = 1 - xs.foldl min (min acc x)
    rw [max_mirror, ih]

/-- Folding `min` over complements mirrors folding `max`. -/
theorem foldl_min_map_mirror (xs : List ℚ) :
    ∀ acc, (xs.map (fun c => 1 - c)).foldl min (1 - acc) =
      1 - xs.foldl max acc := by
  induction xs with
  | nil => intro acc; rfl
  | cons x xs ih =>
    intro acc
    show (xs.map _).foldl min (min (1 - acc) (1 - x)) = 1 - xs.foldl max (max acc x)
    rw [min_mirror, ih]

/-- The Python `max` over the complemented confidence list. -/
theorem listMax_map_mirror (l : List ℚ) (h : l ≠ []) :
    listMax (l.map (fun c => 1 - c)) = 1 - listMin l := by
  cases l with
  | nil => exact absurd rfl h
  | cons x xs => exact foldl_max_map_mirror xs x

/-- The Python `min` over the complemented confidence list. -/
theorem listMin_map_mirror (l : List ℚ) (h : l ≠ []) :
    listMin (l.map (fun c => 1 - c)) = 1 - listMax l := by
  cases l with
  | nil => exact absurd rfl h
  | cons x xs => exact foldl_min_map_mirror xs x

/-- A `min`-fold produces its accumulator or a list element. -/
theorem foldl_min_mem (xs : List ℚ) :
    ∀ acc, xs.foldl min acc = acc ∨ xs.foldl min acc ∈ xs := by
  induction xs with
  | nil => intro acc; left; rfl
  | cons x xs ih =>
    intro acc
    rcases ih (min acc x) with h | h
    · rcases min_choice acc x with hc | hc
      · left
        rw [show (x :: xs).foldl min acc = xs.foldl min (min acc x) from rfl,
          h, hc]
      · right
        rw [show (x :: xs).foldl min acc = xs.foldl min (min acc x) from rfl,
          h, hc]
        exact List.mem_cons_self x xs
    · right
      exact List.mem_cons_of_mem x h

/-- A `max`-fold produces its accumulator or a list element. -/
theorem foldl_max_mem (xs : List ℚ) :
    ∀ acc, xs.foldl max acc = acc ∨ xs.foldl max acc ∈ xs := by
  induction xs with
  | nil => intro acc; left; rfl
  | cons x xs ih =>
    intro acc
    rcases ih (max acc x) with h | h
    · rcases max_choice acc x with hc | hc
      · left
        rw [show (x :: xs).foldl max acc = xs.foldl max (max acc x) from rfl,
          h, hc]
      · right
        rw [show (x :: xs).foldl max acc = xs.foldl max (max acc x) from rfl,
          h, hc]
        exact List.mem_cons_self x xs
    · right
      exact List.mem_cons_of_mem x h

/-- The Python `min` of a nonempty list is one of its elements. -/
theorem listMin_mem (l : List ℚ) (h : l ≠ []) : listMin l ∈ l := by
  cases l with
  | nil => exact absurd rfl h
  | cons x xs =>
    rcases foldl_min_mem xs x with h1 | h1
    · rw [show listMin (x :: xs) = xs.foldl min x from rfl, h1]
      exact List.mem_cons_self x xs
    · exact List.mem_cons_of_mem x h1

/-- The Python `max` of a nonempty list is one of its elements. -/
theorem listMax_mem (l : List ℚ) (h : l ≠ []) : listMax l ∈ l := by
  cases l with
  | nil => exact absurd rfl h
  | cons x xs =>
    rcases foldl_max_mem xs x with h1 | h1
    · rw [show listMax (x :: xs) = xs.foldl max x from rfl, h1]
      exact List.mem_cons_self x xs
    · exact List.mem_cons_of_mem x h1

/-- `result[t] += v` shifts a lookup by `v` exactly on names equal to
`t.name`. -/
theorem grLookup_grAdd (g : GameResult) (t s : Team) (v : ℚ) :
    grLookup (grAdd g t v) s =
      grLookup g s + (if s.name = t.name then v else 0) := by
  induction g with
  | nil =>
    show grLookup [(t, v)] s = grLookup [] s + _
    show (if t.name = s.name then v else grLookup [] s) = _
    by_cases h : t.name = s.name
    · rw [if_pos h, if_pos h.symm]
      show v = 0 + v
      rw [zero_add]
    · rw [if_neg h, if_neg (fun hh => h hh.symm)]
      show grLookup [] s = grLookup [] s + 0
      rw [add_zero]
  | cons p rest ih =>
    obtain ⟨u, w⟩ := p
    show grLookup (if u.name = t.name then (u, w + v) :: rest
      else (u, w) :: grAdd rest t v) s = _
    by_cases h1 : u.name = t.name
    · rw [if_pos h1]
      show (if u.name = s.name then w + v else grLookup rest s) = _
      show _ = (if u.name = s.name then w else grLookup rest s) + _
      by_cases h2 : u.name = s.name
      · rw [if_pos h2, if_pos h2, if_pos ((h2.symm.trans h1).symm ▸ rfl)]
      · rw [if_neg h2, if_neg h2,
          if_neg (fun hh => h2 (h1.trans hh.symm)), add_zero]
    · rw [if_neg h1]
      show (if u.name = s.name then w else grLookup (grAdd rest t v) s) = _
      show _ = (if u.name = s.name then w else grLookup rest s) + _
      by_cases h2 : u.name = s.name
      · rw [if_pos h2, if_pos h2,
          if_neg (fun hh => h1 (h2.trans hh)), add_zero]
      · rw [if_neg h2, if_neg h2, ih]

/-- `result[t] += v` adds `v` to the total probability mass. -/
theorem grMass_grAdd (g : GameResult) (t : Team) (v : ℚ) :
    grMass (grAdd g t v) = grMass g + v := by
  induction g with
  | nil =>
    show grMass [(t, v)] = grMass [] + v
    simp [grMass]
  | cons p rest ih =>
    obtain ⟨u, w⟩ := p
    show grMass (if u.name = t.name then (u, w + v) :: rest
      else (u, w) :: grAdd rest t v) = _
    by_cases h : u.name = t.name
    · rw [if_pos h]
      show w + v + grMass rest = w + grMass rest + v
      ring
    · rw [if_neg h]
      show w + grMass (grAdd rest t v) = w + grMass rest + v
      rw [ih]
      ring

/-- Mass of the `_round` accumulation loop: the initial mass plus each
iterated team's contribution. -/
theorem grMass_fold (cmp : Team → Team → ℚ) (other : List (Team × ℚ))
    (l : List (Team × ℚ)) :
    ∀ init : GameResult,
      grMass (l.foldl (fun acc p => grAdd acc p.1
          (p.2 * (other.map (fun q => q.2 * cmp p.1 q.1)).sum)) init) =
        grMass init +
          (l.map (fun p =>
            p.2 * (other.map (fun q => q.2 * cmp p.1 q.1)).sum)).sum := by
  induction l with
  | nil =>
    intro init
    simp
  | cons p ps ih =>
    intro init
    show grMass (ps.foldl _ (grAdd init p.1
      (p.2 * (other.map (fun q => q.2 * cmp p.1 q.1)).sum))) = _
    rw [ih, grMass_grAdd, List.map_cons, List.sum_cons]
    ring

/-- Lookup through the `_round` accumulation loop: the initial lookup plus the
contributions of the iterated teams whose name matches. -/
theorem grLookup_fold (cmp : Team → Team → ℚ) (other : List (Team × ℚ))
    (l : List (Team × ℚ)) (s : Team) :
    ∀ init : GameResult,
      grLookup (l.foldl (fun acc p => grAdd acc p.1
          (p.2 * (other.map (fun q => q.2 * cmp p.1 q.1)).sum)) init) s =
        grLookup init s +
          (l.map (fun p => if s.name = p.1.name then
            p.2 * (other.map (fun q => q.2 * cmp p.1 q.1)).sum else 0)).sum := by
  induction l with
  | nil =>
    intro init
    simp
  | cons p ps ih =>
    intro init
    show grLookup (ps.foldl _ (grAdd init p.1
      (p.2 * (other.map (fun q => q.2 * cmp p.1 q.1)).sum))) s = _
    rw [ih, grLookup_grAdd, List.map_cons, List.sum_cons]
    ring

/-- In a distribution with duplicate-free names in which any key carrying
`t`'s name is `t` itself, the name-matching contributions collapse to
`P(t) * conv(t)`. -/
theorem sum_name_match (cmp : Team → Team → ℚ) (other : List (Team × ℚ))
    (l : List (Team × ℚ)) (t : Team)
    (hnd : (l.map (fun p => p.1.name)).Nodup)
    (hk : ∀ p ∈ l, p.1.name = t.name → p.1 = t) :
    (l.map (fun p => if t.name = p.1.name then
        p.2 * (other.map (fun q => q.2 * cmp p.1 q.1)).sum else 0)).sum =
      grLookup l t * (other.map (fun q => q.2 * cmp t q.1)).sum := by
  induction l with
  | nil =>
    show (0 : ℚ) = grLookup [] t * _
    show (0 : ℚ) = 0 * _
    rw [zero_mul]
  | cons p ps ih =>
    rw [List.map_cons] at hnd
    obtain ⟨hp, hps⟩ := List.nodup_cons.mp hnd
    rw [List.map_cons, List.sum_cons]
    by_cases h : t.name = p.1.name
    · have hpt : p.1 = t := hk p (List.mem_cons_self _ _) h.symm
      have htail : (ps.map (fun q => if t.name = q.1.name then
          q.2 * (other.map (fun r => r.2 * cmp q.1 r.1)).sum else 0)).sum
          = 0 := by
        apply List.sum_eq_zero
        intro x hx
        rcases List.mem_map.mp hx with ⟨q, hq, rfl⟩
        rw [if_neg (fun hc => hp (by
          rw [h.symm.trans hc]
          exact List.mem_map_of_mem (fun p => p.1.name) hq))]
      rw [if_pos h, htail, add_zero]
      show _ = (if p.1.name = t.name then p.2 else grLookup ps t) * _
      rw [if_pos h.symm, hpt]
    · rw [if_neg h, zero_add]
      show _ = (if p.1.name = t.name then p.2 else grLookup ps t) * _
      rw [if_neg (fun hh => h hh.symm)]
      exact ih hps (fun q hq => hk q (List.mem_cons_of_mem p hq))

/-- Summing the zero function over any list gives zero. -/
theorem sum_map_zero {α : Type} (l : List α) :
    (l.map (fun _ => (0 : ℚ))).sum = 0 :=
  List.sum_eq_zero (fun x hx => by
    rcases List.mem_map.mp hx with ⟨_, _, rfl⟩
    rfl)

/-- The two convolution contributions of `_round` together sum to the product
of the two input masses when the comparator is complementary. -/
theorem conv_sum (cmp : Team → Team → ℚ)
    (hsym : ∀ x y, cmp x y + cmp y x = 1) (a b : List (Team × ℚ)) :
    (a.map (fun p => p.2 * (b.map (fun q => q.2 * cmp p.1 q.1)).sum)).sum +
      (b.map (fun p => p.2 * (a.map (fun q => q.2 * cmp p.1 q.1)).sum)).sum =
      grMass a * grMass b := by
  induction a with
  | nil =>
    have hz : b.map (fun p =>
        p.2 * (([] : List (Team × ℚ)).map (fun q => q.2 * cmp p.1 q.1)).sum) =
        b.map (fun _ => (0 : ℚ)) :=
      List.map_congr_left (fun p _ => by
        show p.2 * ([] : List ℚ).sum = 0
        simp)
    rw [hz, sum_map_zero]
    show (0 : ℚ) + 0 = grMass [] * grMass b
    show (0 : ℚ) + 0 = 0 * grMass b
    ring
  | cons p ps ih =>
    rw [List.map_cons, List.sum_cons]
    have hsplit : b.map (fun q =>
        q.2 * ((p :: ps).map (fun r => r.2 * cmp q.1 r.1)).sum) =
        b.map (fun q => q.2 * (p.2 * cmp q.1 p.1) +
          q.2 * (ps.map (fun r => r.2 * cmp q.1 r.1)).sum) :=
      List.map_congr_left (fun q _ => by
        rw [List.map_cons, List.sum_cons, mul_add])
    rw [hsplit, List.sum_map_add]
    have hpair : p.2 * (b.map (fun q => q.2 * cmp p.1 q.1)).sum +
        (b.map (fun q => q.2 * (p.2 * cmp q.1 p.1))).sum =
        p.2 * grMass b := by
      rw [← List.sum_map_mul_left, ← List.sum_map_add]
      have hone : b.map (fun q => p.2 * (q.2 * cmp p.1 q.1) +
          q.2 * (p.2 * cmp q.1 p.1)) = b.map (fun q => p.2 * q.2) :=
        List.map_congr_left (fun q _ => by
          have hq := hsym p.1 q.1
          linear_combination p.2 * q.2 * hq)
      rw [hone]
      show (b.map (fun q => p.2 * q.2)).sum = p.2 * (b.map (fun q => q.2)).sum
      rw [← List.sum_map_mul_left]
    have hmass : grMass (p :: ps) = p.2 + grMass ps := by
      show (((p :: ps).map (fun q => q.2)).sum) = _
      rw [List.map_cons, List.sum_cons]
      rfl
    rw [hmass, add_mul]
    linarith [hpair, ih]

/-- `_round` multiplies the two input masses when the comparator is
complementary. -/
theorem roundGR_mass (cmp : Team → Team → ℚ)
    (hsym : ∀ x y, cmp x y + cmp y x = 1) (a b : GameResult) :
    grMass (roundGR cmp a b) = grMass a * grMass b := by
  simp only [roundGR]
  rw [grMass_fold cmp a b, grMass_fold cmp b a]
  rw [show grMass ([] : GameResult) = 0 from rfl, zero_add]
  exact conv_sum cmp hsym a b

/-- `play_round` preserves unit mass at every leaf when the comparator is
complementary. -/
theorem playRound_mass (cmp : Team → Team → ℚ)
    (hsym : ∀ x y, cmp x y + cmp y x = 1) :
    ∀ T : Tournament, (∀ g ∈ T.leavesOf, grMass g = 1) →
      ∀ g ∈ (Tournament.playRound cmp T).leavesOf, grMass g = 1 := by
  intro T
  induction T with
  | leaf g => exact fun h => h
  | node l r ihl ihr =>
    intro h
    have hl : ∀ g ∈ l.leavesOf, grMass g = 1 := fun g hg =>
      h g (List.mem_append_left _ hg)
    have hr : ∀ g ∈ r.leavesOf, grMass g = 1 := fun g hg =>
      h g (List.mem_append_right _ hg)
    rcases l with g1 | ⟨l1, l2⟩
    · rcases r with g2 | ⟨r1, r2⟩
      · intro g hg
        rw [List.mem_singleton.mp hg, roundGR_mass cmp hsym g1 g2,
          hl g1 (List.mem_singleton_self g1),
          hr g2 (List.mem_singleton_self g2), one_mul]
      · intro g hg
        rcases List.mem_append.mp hg with h1 | h1
        · exact ihl hl g h1
        · exact ihr hr g h1
    · intro g hg
      rcases List.mem_append.mp hg with h1 | h1
      · exact ihl hl g h1
      · exact ihr hr g h1

/-! ## Claim theorems -/

/-- C2: `play_round` replaces a node whose both children are leaves by the
convolution of the two distributions under the comparator — each team `t`
contributes its own probability times the sum over the other side of
`P(u) * compare(t, u)`, the two sides' contributions being added for a team
present in both — and when the comparator is complementary and every leaf of
the tournament has unit mass, every surviving `GameResult` after the round
has unit mass. -/
theorem play_round_convolution (cmp : Team → Team → ℚ) (a b : GameResult)
    (t : Team) (T : Tournament)
    (hnda : (a.map (fun p => p.1.name)).Nodup)
    (hndb : (b.map (fun p => p.1.name)).Nodup)
    (hk : ∀ p ∈ a ++ b, p.1.name = t.name → p.1 = t)
    (hsym : ∀ x y, cmp x y + cmp y x = 1)
    (hmass : ∀ g ∈ T.leavesOf, grMass g = 1) :
    Tournament.playRound cmp (.node (.leaf a) (.leaf b)) =
      .leaf (roundGR cmp a b) ∧
    grLookup (roundGR cmp a b) t =
      grLookup a t * (b.map (fun q => q.2 * cmp t q.1)).sum +
        grLookup b t * (a.map (fun q => q.2 * cmp t q.1)).sum ∧
    ∀ g ∈ (Tournament.playRound cmp T).leavesOf, grMass g = 1 := by
  refine ⟨rfl, ?_, playRound_mass cmp hsym T hmass⟩
  simp only [roundGR]
  rw [grLookup_fold cmp a b t, grLookup_fold cmp b a t]
  rw [sum_name_match cmp b a t hnda
      (fun p hp => hk p (List.mem_append_left _ hp)),
    sum_name_match cmp a b t hndb
      (fun p hp => hk p (List.mem_append_right _ hp))]
  show grLookup [] t + _ + _ = _
  show (0 : ℚ) + _ + _ = _
  ring

/-- Witness for C2: two single-team leaves under the constant-half
comparator. -/
theorem play_round_convolution_witness :
    (Tournament.playRound (fun _ _ => 1/2)
        (.node (.leaf [(⟨"p", 1⟩, 1)]) (.leaf [(⟨"q", 2⟩, 1)])) =
      .leaf (roundGR (fun _ _ => 1/2) [(⟨"p", 1⟩, 1)] [(⟨"q", 2⟩, 1)]) ∧
    grLookup (roundGR (fun _ _ => 1/2) [(⟨"p", 1⟩, 1)] [(⟨"q", 2⟩, 1)])
        ⟨"p", 1⟩ =
      grLookup [(⟨"p", 1⟩, 1)] ⟨"p", 1⟩ *
          ([((⟨"q", 2⟩ : Team), (1 : ℚ))].map (fun q => q.2 * (1/2 : ℚ))).sum +
        grLookup [(⟨"q", 2⟩, 1)] ⟨"p", 1⟩ *
          ([((⟨"p", 1⟩ : Team), (1 : ℚ))].map (fun q => q.2 * (1/2 : ℚ))).sum ∧
    ∀ g ∈ (Tournament.playRound (fun _ _ => 1/2)
        (.node (.leaf [(⟨"p", 1⟩, 1)])
          (.leaf [(⟨"q", 2⟩, 1)]))).leavesOf, grMass g = 1) :=
  play_round_convolution (fun _ _ => 1/2) [(⟨"p", 1⟩, 1)] [(⟨"q", 2⟩, 1)]
    ⟨"p", 1⟩ (.node (.leaf [(⟨"p", 1⟩, 1)]) (.leaf [(⟨"q", 2⟩, 1)]))
    (by decide) (by decide) (by decide)
    (fun _ _ => by norm_num)
    (by
      intro g hg
      rcases List.mem_cons.mp hg with h | h
      · rw [h]
        norm_num [grMass]
      · rw [List.mem_singleton.mp h]
        norm_num [grMass])

/-- C3 counterexample: with no stored summary and a failing builder,
`get_total_summary` triggers the builder once and then returns the normal
value `None` (`Except.ok none`) — the builder's exception is caught by the
bare `except:` and no error is propagated to the caller, contradicting the
claim's "fails with an error propagated to the caller". -/
theorem get_total_summary_swallows_builder_failure :
    getTotalSummary 2 ⟨none, false, []⟩ ⟨0, 0⟩ = (Except.ok none, ⟨1, 1⟩) ∧
    (Except.ok (none : Option (List GameRecord)) :
      Except Unit (Option (List GameRecord))) ≠ Except.error () := by
  constructor
  · rfl
  · intro h
    cases h

/-- C3 (amended): when no season summary is stored, `get_total_summary`
triggers the external builder exactly once; if the builder succeeds it retries
the fetch exactly once (two load attempts total) and returns the rebuilt
summary; if the builder fails it catches the exception, logs, and returns
`None` — no error is propagated and nothing further is retried. -/
theorem get_total_summary_retry_semantics (env : SummaryEnv) (fuel : ℕ)
    (hmiss : env.stored = none) :
    (env.harvestOk = false →
      getTotalSummary (fuel + 2) env ⟨0, 0⟩ = (Except.ok none, ⟨1, 1⟩)) ∧
    (env.harvestOk = true →
      getTotalSummary (fuel + 2) env ⟨0, 0⟩ =
        (Except.ok (some env.harvestOut), ⟨2, 1⟩)) := by
  obtain ⟨stored, hok, hout⟩ := env
  simp only at hmiss
  subst hmiss
  constructor
  · intro h
    simp only at h
    subst h
    rfl
  · intro h
    simp only at h
    subst h
    rfl

/-- Witness for C3 (amended): a succeeding builder rebuilds and the fetch is
retried exactly once. -/
theorem get_total_summary_retry_semantics_witness :
    ((SummaryEnv.mk none true []).harvestOk = false →
      getTotalSummary 2 ⟨none, true, []⟩ ⟨0, 0⟩ = (Except.ok none, ⟨1, 1⟩)) ∧
    ((SummaryEnv.mk none true []).harvestOk = true →
      getTotalSummary 2 ⟨none, true, []⟩ ⟨0, 0⟩ =
        (Except.ok (some (SummaryEnv.mk none true []).harvestOut), ⟨2, 1⟩)) :=
  get_total_summary_retry_semantics ⟨none, true, []⟩ 0 rfl

/-- C9 counterexample: `from_team_list` applied to the empty team list has no
base case — it recurses forever on two empty halves — so it never raises an
immediate construction error (nor returns), contradicting the claim. -/
theorem from_team_list_empty_diverges : fromTeamListDiverges [] := by
  intro fuel
  induction fuel with
  | zero => rfl
  | succ fuel ih =>
    show fromTeamListFuel (fuel + 1) [] = none
    simp [fromTeamListFuel, ih]

/-- C9 (amended): `from_team_list` on the empty list does not terminate (no
construction error is raised), while `from_name_list` raises a `ValueError`
for every team count that is not a power of two — through the
quadrant-minimum check for counts below the quadrant count, and the
power-of-two check otherwise. -/
theorem tournament_construction_errors (names : List String)
    (hnp : names.length &&& (names.length - 1) ≠ 0) :
    fromTeamListDiverges [] ∧
    ∃ msg, fromNameList names 4 = Except.error msg := by
  refine ⟨from_team_list_empty_diverges, ?_⟩
  by_cases h1 : names.length < 4
  · exact ⟨"Must have at least as many teams as quadrants", by
      simp only [fromNameList]
      rw [if_pos h1]⟩
  · exact ⟨"Number of teams must be a power of 2", by
      simp only [fromNameList]
      rw [if_neg h1, if_pos hnp]⟩

/-- Witness for C9 (amended): three team names are not a power of two. -/
theorem tournament_construction_errors_witness :
    fromTeamListDiverges [] ∧
    ∃ msg, fromNameList ["a", "b", "c"] 4 = Except.error msg :=
  tournament_construction_errors ["a", "b", "c"] (by decide)

/-- C5 counterexample: in the two-record summary where `a` beats `b` and then
the same game is recorded from `b`'s (losing) perspective, both participants
of the second record are in the universe, yet the record contributes nothing
to the fitted state (the `(b, a)` win-matrix entry stays 0), because the
qualifying guard additionally requires the record's first team to be flagged
as winner. -/
theorem universe_filter_counterexample :
    (let s0 : List GameRecord :=
      [⟨"a", "b", true, 1, 0, 0, 0, 0, 0, 0, 0, 0, 0⟩,
       ⟨"b", "a", false, 0, 1, 0, 0, 0, 0, 0, 0, 0, 0⟩]
    "b" ∈ getTeams s0 ∧ "a" ∈ getTeams s0 ∧
      btMatName (getTeams s0) s0 "b" "a" = 0) := by
  decide

/-- C5 (amended): the universe of ranked names is the set of distinct
dash-joined `teamA` names of the summary (equal to the raw `teamA` names
whenever those contain no spaces, as the cleaning stage guarantees), and a
game contributes to the fitted win matrix if and only if both its participants
are in that universe AND its first team is flagged as the winner. -/
theorem universe_and_qualifying_games (s : List GameRecord) (x a b : String)
    (hns : ∀ g ∈ s, dashJoin g.teamA = g.teamA) :
    (x ∈ getTeams s ↔ ∃ g ∈ s, g.teamA = x) ∧
    btMatName (getTeams s) s a b =
      s.countP (fun g => decide (g.teamA ∈ getTeams s) &&
        decide (g.teamB ∈ getTeams s) && g.winLoss &&
        decide (a = g.teamA) && decide (b = g.teamB)) := by
  constructor
  · unfold getTeams
    rw [List.mem_dedup, List.mem_map]
    constructor
    · rintro ⟨g, hg, rfl⟩
      exact ⟨g, hg, (hns g hg).symm⟩
    · rintro ⟨g, hg, rfl⟩
      exact ⟨g, hg, hns g hg⟩
  · have h0 : (fun _ _ => 0 : String → String → ℕ) a b = 0 := rfl
    have := btFold_count (getTeams s) s (fun _ _ => 0) a b
    unfold btMatName
    omega

/-- Witness for C5 (amended): a one-record summary with space-free names. -/
theorem universe_and_qualifying_games_witness :
    ("a" ∈ getTeams [⟨"a", "b", true, 1, 0, 0, 0, 0, 0, 0, 0, 0, 0⟩] ↔
      ∃ g ∈ [(⟨"a", "b", true, 1, 0, 0, 0, 0, 0, 0, 0, 0, 0⟩ : GameRecord)],
        g.teamA = "a") ∧
    btMatName (getTeams [⟨"a", "b", true, 1, 0, 0, 0, 0, 0, 0, 0, 0, 0⟩])
        [⟨"a", "b", true, 1, 0, 0, 0, 0, 0, 0, 0, 0, 0⟩] "a" "b" =
      List.countP (fun (g : GameRecord) => decide (g.teamA ∈
          getTeams [⟨"a", "b", true, 1, 0, 0, 0, 0, 0, 0, 0, 0, 0⟩]) &&
        decide (g.teamB ∈
          getTeams [⟨"a", "b", true, 1, 0, 0, 0, 0, 0, 0, 0, 0, 0⟩]) &&
        g.winLoss && decide ("a" = g.teamA) && decide ("b" = g.teamB))
        [⟨"a", "b", true, 1, 0, 0, 0, 0, 0, 0, 0, 0, 0⟩] :=
  universe_and_qualifying_games
    [⟨"a", "b", true, 1, 0, 0, 0, 0, 0, 0, 0, 0, 0⟩] "a" "a" "b"
    (by decide)

/-- C4 counterexample: in the path-weight variant, when a path is known in
exactly one direction (here `x → y` with weight 1, `y → x` unreachable, i.e.
`inf` from Dijkstra), `compare_teams` divides the stored distances directly
and produces the IEEE indeterminate `inf / inf = nan` — not the claimed fixed
0.99 for the side with the known path, and there is no seed-ratio branch
either. -/
theorem path_weight_no_fallback_counterexample :
    (let pmat := fun x y : String =>
      if x = "x" ∧ y = "y" then PFloat.rat 1 else PFloat.inf
    pwCompare pmat ⟨"x", 1⟩ ⟨"y", 2⟩ = PFloat.nan ∧
      PFloat.nan ≠ PFloat.rat (99/100) ∧
      PFloat.nan ≠ PFloat.rat ((2 : ℚ) / (1 + 2))) := by
  decide

/-- C4 (amended): the resistance variant implements the whole fallback policy
(`compare(a,a) = 0.5`; seed-ratio when no path was sampled in either
direction; fixed 0.99/0.01 when a path is known in exactly one direction,
favoring the side whose outgoing path is known); the path-weight variant only
defines `compare(a,a) = 0.5` and otherwise divides the stored distances with
no fallback, yielding `nan` when the opposite direction is unreachable. -/
theorem graph_distance_fallbacks (rmat : String → String → Option ℚ)
    (pmat : String → String → PFloat) (a b : Team) (rab rba q : ℚ)
    (hab : a.name ≠ b.name) :
    resistanceCompare rmat a a = 1/2 ∧
    pwCompare pmat a a = PFloat.rat (1/2) ∧
    (rmat a.name b.name = none → rmat b.name a.name = none →
      resistanceCompare rmat a b =
        (b.seed : ℚ) / ((a.seed : ℚ) + (b.seed : ℚ))) ∧
    (rmat a.name b.name = some rab → rmat b.name a.name = none →
      resistanceCompare rmat a b = 99/100) ∧
    (rmat a.name b.name = none → rmat b.name a.name = some rba →
      resistanceCompare rmat a b = 1/100) ∧
    (pmat a.name b.name = PFloat.rat q → pmat b.name a.name = PFloat.inf →
      pwCompare pmat a b = PFloat.nan) := by
  refine ⟨?_, ?_, ?_, ?_, ?_, ?_⟩
  · simp [resistanceCompare]
  · simp [pwCompare]
  · intro h1 h2
    simp [resistanceCompare, hab, h1, h2]
  · intro h1 h2
    simp [resistanceCompare, hab, h1, h2]
  · intro h1 h2
    simp [resistanceCompare, hab, h1, h2]
  · intro h1 h2
    simp [pwCompare, hab, h1, h2, PFloat.add, PFloat.div]

/-- Witness for C4 (amended): a two-team fitted state with no sampled
resistance paths and a one-directional path-weight table. -/
theorem graph_distance_fallbacks_witness :
    (resistanceCompare (fun _ _ => none) ⟨"x", 1⟩ ⟨"x", 1⟩ = 1/2 ∧
    pwCompare (fun x y => if x = "x" ∧ y = "y" then PFloat.rat 1
      else PFloat.inf) ⟨"x", 1⟩ ⟨"x", 1⟩ = PFloat.rat (1/2) ∧
    ((fun _ _ => (none : Option ℚ)) "x" "y" = none →
      (fun _ _ => (none : Option ℚ)) "y" "x" = none →
      resistanceCompare (fun _ _ => none) ⟨"x", 1⟩ ⟨"y", 2⟩ =
        ((2 : ℕ) : ℚ) / (((1 : ℕ) : ℚ) + ((2 : ℕ) : ℚ))) ∧
    ((fun _ _ => (none : Option ℚ)) "x" "y" = some 1 →
      (fun _ _ => (none : Option ℚ)) "y" "x" = none →
      resistanceCompare (fun _ _ => none) ⟨"x", 1⟩ ⟨"y", 2⟩ = 99/100) ∧
    ((fun _ _ => (none : Option ℚ)) "x" "y" = none →
      (fun _ _ => (none : Option ℚ)) "y" "x" = some 1 →
      resistanceCompare (fun _ _ => none) ⟨"x", 1⟩ ⟨"y", 2⟩ = 1/100) ∧
    ((fun x y => if x = "x" ∧ y = "y" then PFloat.rat 1 else PFloat.inf)
        "x" "y" = PFloat.rat 1 →
      (fun x y => if x = "x" ∧ y = "y" then PFloat.rat 1 else PFloat.inf)
        "y" "x" = PFloat.inf →
      pwCompare (fun x y => if x = "x" ∧ y = "y" then PFloat.rat 1
        else PFloat.inf) ⟨"x", 1⟩ ⟨"y", 2⟩ = PFloat.nan)) :=
  graph_distance_fallbacks (fun _ _ => none)
    (fun x y => if x = "x" ∧ y = "y" then PFloat.rat 1 else PFloat.inf)
    ⟨"x", 1⟩ ⟨"y", 2⟩ 1 1 1 (by decide)

/-- C1 counterexample: a Hybrid of two Bradley–Terry models whose confidences
for a pair are exactly 0.3 and 0.7 hits the boundary case
`max_conf = 1 - min_conf`: both orderings return `max_conf = 0.7`, so
`compare(a,b) + compare(b,a) = 1.4`, violating `= 1` far beyond the 1e-6
tolerance. -/
theorem hybrid_sum_counterexample :
    hybridCompare [btCompare (fun nm => if nm = "p" then 3 else 7),
        btCompare (fun nm => if nm = "p" then 7 else 3)] ⟨"p", 1⟩ ⟨"q", 2⟩ +
      hybridCompare [btCompare (fun nm => if nm = "p" then 3 else 7),
        btCompare (fun nm => if nm = "p" then 7 else 3)] ⟨"q", 2⟩ ⟨"p", 1⟩ =
      7/5 ∧ |(7 : ℚ)/5 - 1| > 1/1000000 := by
  constructor
  · norm_num [hybridCompare, btCompare, listMin, listMax, min_def, max_def,
      show ("q" : String) ≠ "p" from by decide]
  · have h : |(7 : ℚ)/5 - 1| = 2/5 := by
      rw [show (7 : ℚ)/5 - 1 = 2/5 by norm_num]
      exact abs_of_pos (by norm_num)
    rw [h]
    norm_num

/-- C1 (amended): the PageRank, Elo, Bradley–Terry, GraphDistance-resistance
and Seed comparators all satisfy `compare(a,b) + compare(b,a) = 1` (exactly)
and `compare(a,a) = 0.5`; the Hybrid comparator satisfies them provided its
wrapped models' confidence extremes do not hit the boundary
`max_conf = 1 - min_conf` with `max_conf ≠ 0.5`. -/
theorem compare_symmetry_all_models
    (tenPow : ℚ → ℚ) (elo : String → ℚ) (btR : String → ℚ) (pr : PRState)
    (phi : ℚ → ℚ) (stdev : ℚ) (rmat : String → String → Option ℚ)
    (fs : List (Team → Team → ℚ)) (a b : Team)
    (hTen : ∀ x, 0 < tenPow x)
    (hbt : ∀ nm, 0 < btR nm)
    (_hdiff : (pr.cdf pr.maxVec - pr.cdf pr.minVec) * pr.invSqrtTwo ≠ 0)
    (hphi : ∀ x, phi (-x) = 1 - phi x)
    (hrpos : ∀ x y r, rmat x y = some r → 0 < r)
    (hsa : 1 ≤ a.seed) (hsb : 1 ≤ b.seed)
    (hfs : fs ≠ [])
    (hsym : ∀ f ∈ fs, ∀ x y, f x y + f y x = 1)
    (hself : ∀ f ∈ fs, ∀ x, f x x = 1/2)
    (htie : listMax (fs.map (fun f => f a b)) =
        1 - listMin (fs.map (fun f => f a b)) →
      listMax (fs.map (fun f => f a b)) = 1/2) :
    (eloCompare tenPow elo a b + eloCompare tenPow elo b a = 1 ∧
      eloCompare tenPow elo a a = 1/2) ∧
    (btCompare btR a b + btCompare btR b a = 1 ∧ btCompare btR a a = 1/2) ∧
    (prCompare pr a b + prCompare pr b a = 1 ∧ prCompare pr a a = 1/2) ∧
    (seedCompare phi stdev a b + seedCompare phi stdev b a = 1 ∧
      seedCompare phi stdev a a = 1/2) ∧
    (resistanceCompare rmat a b + resistanceCompare rmat b a = 1 ∧
      resistanceCompare rmat a a = 1/2) ∧
    (hybridCompare fs a b + hybridCompare fs b a = 1 ∧
      hybridCompare fs a a = 1/2) := by
  refine ⟨⟨?_, ?_⟩, ⟨?_, ?_⟩, ⟨?_, ?_⟩, ⟨?_, ?_⟩, ⟨?_, ?_⟩, ⟨?_, ?_⟩⟩
  · have h1 := hTen (elo a.name)
    have h2 := hTen (elo b.name)
    simp only [eloCompare]
    rw [add_comm (tenPow (elo b.name)) (tenPow (elo a.name)),
      div_add_div_same, div_self (ne_of_gt (add_pos h1 h2))]
  · have h1 := hTen (elo a.name)
    simp only [eloCompare]
    rw [div_eq_iff (ne_of_gt (add_pos h1 h1))]
    ring
  · have h1 := hbt a.name
    have h2 := hbt b.name
    unfold btCompare
    rw [add_comm (btR b.name) (btR a.name), div_add_div_same,
      div_self (ne_of_gt (add_pos h1 h2))]
  · have h1 := hbt a.name
    unfold btCompare
    rw [div_eq_iff (ne_of_gt (add_pos h1 h1))]
    ring
  · simp only [prCompare]
    rw [abs_sub_comm (pr.cdf (pr.rankings b.name)) (pr.cdf (pr.rankings a.name))]
    by_cases h1 : pr.rankings a.name ≥ pr.rankings b.name
    · by_cases h2 : pr.rankings b.name ≥ pr.rankings a.name
      · have heq : pr.rankings a.name = pr.rankings b.name := le_antisymm h2 h1
        rw [if_pos h1, if_pos h2, heq, sub_self, abs_zero, zero_div, zero_add]
        norm_num [min_def]
      · rw [if_pos h1, if_neg h2]
        ring
    · have h2 : pr.rankings b.name ≥ pr.rankings a.name :=
        le_of_lt (lt_of_not_ge h1)
      rw [if_neg h1, if_pos h2]
      ring
  · simp only [prCompare]
    rw [if_pos (le_refl (pr.rankings a.name)), sub_self, abs_zero, zero_div,
      zero_add]
    norm_num [min_def]
  · unfold seedCompare
    have hx : (0 - ((b.seed : ℚ) - (a.seed : ℚ))) / stdev =
        -((0 - ((a.seed : ℚ) - (b.seed : ℚ))) / stdev) := by ring
    rw [hx, hphi]
    ring
  · unfold seedCompare
    have h0 : (0 - ((a.seed : ℚ) - (a.seed : ℚ))) / stdev = 0 := by ring
    rw [h0]
    have := hphi 0
    rw [neg_zero] at this
    linarith
  · by_cases hname : a.name = b.name
    · unfold resistanceCompare
      rw [if_pos hname, if_pos hname.symm]
      norm_num
    · have ha1 : (1 : ℚ) ≤ (a.seed : ℚ) := by exact_mod_cast hsa
      have hb1 : (1 : ℚ) ≤ (b.seed : ℚ) := by exact_mod_cast hsb
      unfold resistanceCompare
      rw [if_neg hname, if_neg (Ne.symm hname)]
      rcases hAB : rmat a.name b.name with _ | rab <;>
        rcases hBA : rmat b.name a.name with _ | rba
      · show (b.seed : ℚ) / ((a.seed : ℚ) + (b.seed : ℚ)) +
          (a.seed : ℚ) / ((b.seed : ℚ) + (a.seed : ℚ)) = 1
        have hd1 : (a.seed : ℚ) + (b.seed : ℚ) ≠ 0 := by linarith
        have hd2 : (b.seed : ℚ) + (a.seed : ℚ) ≠ 0 := by linarith
        field_simp
        ring
      · show (1 : ℚ)/100 + 99/100 = 1
        norm_num
      · show (99 : ℚ)/100 + 1/100 = 1
        norm_num
      · show rba / (rab + rba) + rab / (rba + rab) = 1
        have hr1 := hrpos a.name b.name rab hAB
        have hr2 := hrpos b.name a.name rba hBA
        have hd1 : rab + rba ≠ 0 := by linarith
        have hd2 : rba + rab ≠ 0 := by linarith
        field_simp
        ring
  · unfold resistanceCompare
    rw [if_pos rfl]
  · have hcs2 : fs.map (fun f => f b a) =
        (fs.map (fun f => f a b)).map (fun c => 1 - c) := by
      rw [List.map_map]
      apply List.map_congr_left
      intro f hf
      have := hsym f hf a b
      simp only [Function.comp_apply]
      linarith
    have hne : fs.map (fun f => f a b) ≠ [] := by
      intro h
      exact hfs (List.map_eq_nil_iff.mp h)
    simp only [hybridCompare]
    rw [hcs2, listMax_map_mirror _ hne, listMin_map_mirror _ hne]
    set m := listMin (fs.map (fun f => f a b)) with hm
    set M := listMax (fs.map (fun f => f a b)) with hM
    rcases lt_trichotomy M (1 - m) with h | h | h
    · rw [if_neg (not_le.mpr h), if_pos (by linarith)]
      ring
    · rw [if_pos (by linarith), if_pos (by linarith)]
      have h2 := htie h
      linarith
    · rw [if_pos (by linarith), if_neg (by intro hc; linarith)]
      ring
  · have hconst : fs.map (fun f => f a a) = fs.map (fun _ => (1/2 : ℚ)) :=
      List.map_congr_left (fun f hf => hself f hf a)
    have hne2 : fs.map (fun _ => (1/2 : ℚ)) ≠ [] := by
      intro h
      exact hfs (List.map_eq_nil_iff.mp h)
    have hmin : listMin (fs.map (fun _ => (1/2 : ℚ))) = 1/2 := by
      rcases List.mem_map.mp (listMin_mem _ hne2) with ⟨f, _, hf⟩
      exact hf.symm
    have hmax : listMax (fs.map (fun _ => (1/2 : ℚ))) = 1/2 := by
      rcases List.mem_map.mp (listMax_mem _ hne2) with ⟨f, _, hf⟩
      exact hf.symm
    simp only [hybridCompare]
    rw [hconst, hmin, hmax, if_pos (by norm_num)]

/-- Witness for C1 (amended): concrete fitted states for all six model
families, on the teams `p` (seed 1) and `q` (seed 2). -/
theorem compare_symmetry_all_models_witness :
    ((eloCompare (fun _ => 1) (fun _ => 0) ⟨"p", 1⟩ ⟨"q", 2⟩ +
        eloCompare (fun _ => 1) (fun _ => 0) ⟨"q", 2⟩ ⟨"p", 1⟩ = 1 ∧
      eloCompare (fun _ => 1) (fun _ => 0) ⟨"p", 1⟩ ⟨"p", 1⟩ = 1/2) ∧
    (btCompare (fun _ => 1) ⟨"p", 1⟩ ⟨"q", 2⟩ +
        btCompare (fun _ => 1) ⟨"q", 2⟩ ⟨"p", 1⟩ = 1 ∧
      btCompare (fun _ => 1) ⟨"p", 1⟩ ⟨"p", 1⟩ = 1/2) ∧
    (prCompare ⟨fun _ => 0, fun x => x, 0, 1, 1⟩ ⟨"p", 1⟩ ⟨"q", 2⟩ +
        prCompare ⟨fun _ => 0, fun x => x, 0, 1, 1⟩ ⟨"q", 2⟩ ⟨"p", 1⟩ = 1 ∧
      prCompare ⟨fun _ => 0, fun x => x, 0, 1, 1⟩ ⟨"p", 1⟩ ⟨"p", 1⟩ = 1/2) ∧
    (seedCompare (fun x => 1/2 + x) 1 ⟨"p", 1⟩ ⟨"q", 2⟩ +
        seedCompare (fun x => 1/2 + x) 1 ⟨"q", 2⟩ ⟨"p", 1⟩ = 1 ∧
      seedCompare (fun x => 1/2 + x) 1 ⟨"p", 1⟩ ⟨"p", 1⟩ = 1/2) ∧
    (resistanceCompare (fun _ _ => none) ⟨"p", 1⟩ ⟨"q", 2⟩ +
        resistanceCompare (fun _ _ => none) ⟨"q", 2⟩ ⟨"p", 1⟩ = 1 ∧
      resistanceCompare (fun _ _ => none) ⟨"p", 1⟩ ⟨"p", 1⟩ = 1/2) ∧
    (hybridCompare [fun _ _ => 1/2] ⟨"p", 1⟩ ⟨"q", 2⟩ +
        hybridCompare [fun _ _ => 1/2] ⟨"q", 2⟩ ⟨"p", 1⟩ = 1 ∧
      hybridCompare [fun _ _ => 1/2] ⟨"p", 1⟩ ⟨"p", 1⟩ = 1/2)) :=
  compare_symmetry_all_models (fun _ => 1) (fun _ => 0) (fun _ => 1)
    ⟨fun _ => 0, fun x => x, 0, 1, 1⟩ (fun x => 1/2 + x) 1 (fun _ _ => none)
    [fun _ _ => 1/2] ⟨"p", 1⟩ ⟨"q", 2⟩
    (fun _ => one_pos) (fun _ => one_pos) (by norm_num)
    (fun x => by show (1 : ℚ)/2 + -x = 1 - (1/2 + x); ring)
    (by intro x y r h; cases h) (by decide) (by decide)
    (List.cons_ne_nil _ _)
    (by
      intro f hf x y
      rw [List.mem_singleton.mp hf]
      norm_num)
    (by
      intro f hf x
      rw [List.mem_singleton.mp hf])
    (fun _ => rfl)

/-- C6: in each Elo game update the K-factor is determined by the lower of the
two pre-game ratings — 32 below 1500, 24 in [1700, 2000], 16 otherwise (both
the gap [1500, 1700) and the range above 2000 yield 16) — and both teams are
updated by `K * (actual - expected)` with actual 1 for the winner and 0 for
the loser. -/
theorem elo_k_tiers_and_update (tenPow : ℚ → ℚ) (r : String → ℚ)
    (w l : String) (m : ℚ) (hwl : w ≠ l) :
    (m < 1500 → eloK m = 32) ∧
    (1700 ≤ m ∧ m ≤ 2000 → eloK m = 24) ∧
    ((1500 ≤ m ∧ m < 1700) ∨ 2000 < m → eloK m = 16) ∧
    eloGameUpdate tenPow r w l w =
      r w + eloK (min (r w) (r l)) *
        (1 - tenPow (r w) / (tenPow (r w) + tenPow (r l))) ∧
    eloGameUpdate tenPow r w l l =
      r l + eloK (min (r w) (r l)) *
        (0 - tenPow (r l) / (tenPow (r w) + tenPow (r l))) := by
  refine ⟨?_, ?_, ?_, ?_, ?_⟩
  · intro h
    simp [eloK, h]
  · rintro ⟨h1, h2⟩
    unfold eloK
    rw [if_neg (by linarith), if_pos ⟨h1, h2⟩]
  · rintro (⟨h1, h2⟩ | h)
    · unfold eloK
      rw [if_neg (by linarith), if_neg (by rintro ⟨h3, _⟩; linarith)]
    · unfold eloK
      rw [if_neg (by linarith), if_neg (by rintro ⟨_, h3⟩; linarith)]
  · simp [eloGameUpdate, Function.update_noteq hwl, Function.update_same]
  · simp [eloGameUpdate, Function.update_noteq (Ne.symm hwl),
      Function.update_same]

/-- Witness for C6 at rating 1750 and two distinct team names. -/
theorem elo_k_tiers_and_update_witness :
    (((1750 : ℚ) < 1500 → eloK 1750 = 32) ∧
    ((1700 : ℚ) ≤ 1750 ∧ (1750 : ℚ) ≤ 2000 → eloK 1750 = 24) ∧
    (((1500 : ℚ) ≤ 1750 ∧ (1750 : ℚ) < 1700) ∨ (2000 : ℚ) < 1750 →
      eloK 1750 = 16) ∧
    eloGameUpdate (fun _ => 1) (fun _ => 1750) "winner" "loser" "winner" =
      1750 + eloK (min (1750 : ℚ) 1750) * (1 - 1 / (1 + 1)) ∧
    eloGameUpdate (fun _ => 1) (fun _ => 1750) "winner" "loser" "loser" =
      1750 + eloK (min (1750 : ℚ) 1750) * (0 - 1 / (1 + 1))) :=
  elo_k_tiers_and_update (fun _ => 1) (fun _ => 1750) "winner" "loser" 1750
    (by decide)

/-- C10: an Elo game update is zero-sum — the winner's gain
`K * (1 - E_winner)` equals the loser's loss `K * E_loser` — so processing any
season summary leaves the sum of all teams' ratings unchanged. -/
theorem elo_total_rating_conserved (tenPow : ℚ → ℚ) (teams : List String)
    (r : String → ℚ) (w l : String) (summary : List GameRecord)
    (r0 : String → ℚ) (hpos : ∀ x, 0 < tenPow x) (hn : teams.Nodup)
    (hwl : w ≠ l) :
    eloGameUpdate tenPow r w l w - r w = r l - eloGameUpdate tenPow r w l l ∧
    (teams.map (eloProcess tenPow teams summary r0)).sum =
      (teams.map r0).sum := by
  constructor
  · have hq : tenPow (r w) + tenPow (r l) ≠ 0 :=
      ne_of_gt (add_pos (hpos _) (hpos _))
    have he : tenPow (r w) / (tenPow (r w) + tenPow (r l)) +
        tenPow (r l) / (tenPow (r w) + tenPow (r l)) = 1 := by
      rw [div_add_div_same, div_self hq]
    simp only [eloGameUpdate, Function.update_noteq hwl,
      Function.update_noteq (Ne.symm hwl), Function.update_same]
    set eA := tenPow (r w) / (tenPow (r w) + tenPow (r l)) with heA
    set eB := tenPow (r l) / (tenPow (r w) + tenPow (r l)) with heB
    set K := eloK (min (r w) (r l)) with hK
    linear_combination (-K) * he
  · induction summary generalizing r0 with
    | nil => rfl
    | cons g gs ih =>
      show (teams.map
        (eloProcess tenPow teams gs (eloStep tenPow teams r0 g))).sum = _
      rw [ih]
      unfold eloStep
      split_ifs with hqual
      · exact eloGameUpdate_sum tenPow hpos teams hn r0 g.teamA g.teamB
          hqual.1 hqual.2.1
      · rfl

/-- C7: with the damping blend applied to a non-negative game matrix, every
iteration of the PageRank loop — the final one included — renormalizes the
rank vector so its entries sum exactly to the number of teams. -/
theorem pagerank_sum_invariant (n : ℕ) (alpha : ℚ) (mat0 : Fin n → Fin n → ℚ)
    (k : ℕ) (hn : 0 < n) (ha0 : 0 ≤ alpha) (ha1 : alpha < 1)
    (hmat : ∀ i j, 0 ≤ mat0 i j) (hk : 1 ≤ k) :
    ∑ i, prIterate n (prDampen n alpha mat0) k (prInit n) i = n := by
  have hdamp : ∀ i j, 0 < prDampen n alpha mat0 i j := by
    intro i j
    unfold prDampen
    have h1 : 0 ≤ alpha * mat0 i j := mul_nonneg ha0 (hmat i j)
    have h2 : 0 < (1 - alpha) / n := by
      apply div_pos (by linarith)
      exact_mod_cast hn
    linarith
  have hv : ∀ i, 0 ≤ prInit n i := fun _ => zero_le_one
  have hvs : 0 < ∑ i, prInit n i := by
    simp only [prInit, Finset.sum_const, Finset.card_univ, Fintype.card_fin,
      nsmul_eq_mul, mul_one]
    exact_mod_cast hn
  exact (prIterate_facts n hn _ hdamp k (prInit n) hv hvs).2.2 hk

/-- C8: after any number of Bradley–Terry update iterations — each of which
recomputes strengths, substitutes `1/n²` for zero entries, and renormalizes —
the strength vector sums to 1 and no entry is exactly 0 (given a non-negative
game matrix in which every team has played some qualifying game). -/
theorem bradley_terry_sum_one_no_zero (n : ℕ) (mat : Fin n → Fin n → ℚ)
    (iters : ℕ) (hn : 0 < n) (hmat : ∀ i j, 0 ≤ mat i j)
    (hplay : ∀ i, ∃ j, j ≠ i ∧ 0 < mat i j + mat j i) :
    ∑ i, btIterate n mat iters (btInit n) i = 1 ∧
    ∀ i, btIterate n mat iters (btInit n) i ≠ 0 := by
  have hnq : (0 : ℚ) < n := by exact_mod_cast hn
  have hinit : ∀ i, 0 < btInit n i ∧ True := by
    intro i
    exact ⟨(btNormalize_facts n hn (fun _ => 1 / (n : ℚ))
      (fun _ => by positivity)).1 i, trivial⟩
  obtain ⟨hpos, hsum⟩ := btIterate_facts n hn mat hmat hplay iters (btInit n)
    (fun i => (hinit i).1)
    (btNormalize_facts n hn (fun _ => 1 / (n : ℚ)) (fun _ => by positivity)).2
  exact ⟨hsum, fun i => ne_of_gt (hpos i)⟩

/-- Witness for C8: two teams, one game each way, one iteration. -/
theorem bradley_terry_sum_one_no_zero_witness :
    (∑ i, btIterate 2 (fun _ _ => 1) 1 (btInit 2) i = 1 ∧
    ∀ i, btIterate 2 (fun _ _ => 1) 1 (btInit 2) i ≠ 0) :=
  bradley_terry_sum_one_no_zero 2 (fun _ _ => 1) 1 (by decide)
    (fun _ _ => zero_le_one)
    (by
      intro i
      fin_cases i
      · exact ⟨1, by decide, by norm_num⟩
      · exact ⟨0, by decide, by norm_num⟩)

/-- Witness for C7: one team, zero game matrix, damping 0, one iteration. -/
theorem pagerank_sum_invariant_witness :
    ∑ i, prIterate 1 (prDampen 1 0 (fun _ _ => 0)) 1 (prInit 1) i =
      ((1 : ℕ) : ℚ) :=
  pagerank_sum_invariant 1 0 (fun _ _ => 0) 1 (by decide) (by decide)
    (by decide) (fun _ _ => le_refl 0) (by decide)

/-- Witness for C10: a two-team universe with one qualifying game. -/
theorem elo_total_rating_conserved_witness :
    (eloGameUpdate (fun _ => 1) (fun _ => 1750) "a" "b" "a" -
        (fun _ : String => (1750 : ℚ)) "a" =
      (fun _ : String => (1750 : ℚ)) "b" -
        eloGameUpdate (fun _ => 1) (fun _ => 1750) "a" "b" "b") ∧
    ((["a", "b"].map (eloProcess (fun _ => 1) ["a", "b"]
        [⟨"a", "b", true, 70, 60, 0, 0, 0, 0, 0, 0, 0, 0⟩]
        (fun _ => 1750))).sum =
      (["a", "b"].map (fun _ : String => (1750 : ℚ))).sum) :=
  elo_total_rating_conserved (fun _ => 1) ["a", "b"] (fun _ => 1750) "a" "b"
    [⟨"a", "b", true, 70, 60, 0, 0, 0, 0, 0, 0, 0, 0⟩] (fun _ => 1750)
    (fun _ => one_pos) (by decide) (by decide)

end NCAA
